import Mathlib

/-!
Verification of the json-view tree model and view-state algorithms.

The development shallowly embeds the core of `src/json_view_core.cpp`
(tree construction, visibility flattening, expansion control, search)
and the search-match navigation of `src/json-view.cpp`.  JSON values are
modelled by an inductive type whose objects carry their fields in the
order the parsing collaborator presents them and whose numbers carry
their canonical textual form (the result of `dump()`).  C++ strings are
modelled by Lean strings; per-byte `tolower` is modelled by
`Char.toLower` on the characters.
-/

/-- A parsed JSON value (the `json` values that `buildTree` receives). -/
inductive JsonVal : Type where
  | str (s : String)
  | num (dmp : String)
  | boolean (b : Bool)
  | null
  | obj (fields : List (String × JsonVal))
  | arr (items : List JsonVal)

/-- The `Node` struct of `json_view_core.hpp`: display key, mutable
`expanded` flag, the dummy-root marker, the last-child marker, the
referenced JSON value and the owned children.  The C++ parent pointer is
represented implicitly by the tree structure. -/
inductive Node : Type where
  | node (key : String) (expanded : Bool) (isDummyRoot : Bool) (isLastChild : Bool)
      (value : JsonVal) (children : List Node)

def Node.key : Node → String
  | .node k _ _ _ _ _ => k

def Node.expanded : Node → Bool
  | .node _ e _ _ _ _ => e

def Node.isDummyRoot : Node → Bool
  | .node _ _ d _ _ _ => d

def Node.isLastChild : Node → Bool
  | .node _ _ _ l _ _ => l

def Node.value : Node → JsonVal
  | .node _ _ _ _ v _ => v

def Node.children : Node → List Node
  | .node _ _ _ _ _ cs => cs

/-- Strong induction over `Node` trees: to prove a property of a node it
suffices to prove it assuming it for all children. -/
theorem Node.inductionOn {P : Node → Prop}
    (h : ∀ k e d l v cs, (∀ c, c ∈ cs → P c) → P (.node k e d l v cs)) :
    ∀ n, P n
  | .node k e d l v cs => h k e d l v cs (fun c hc => Node.inductionOn h c)
termination_by n => sizeOf n
decreasing_by
  simp only [Node.node.sizeOf_spec]
  have := List.sizeOf_lt_of_mem hc
  omega

/-- The assignment `children[i]->isLastChild = (i == size-1)` performed by
the parent. -/
def setLast : Node → Bool → Node
  | .node k e d _ v cs, b => .node k e d b v cs

/-- The final loop of `buildTree`: flag exactly the last child of the
freshly built child list. -/
def markLast : List Node → List Node
  | [] => []
  | [c] => [setLast c true]
  | c :: cs => setLast c false :: markLast cs

mutual
/-- `buildTree` from json_view_core.cpp (lines 51-92): mirror the JSON
value; objects get one child per property in the order the value
presents them, arrays one child per element keyed by its bracketed
index; `expanded` and `isDummyRoot` are set to the `dummy` argument. -/
def buildTree : JsonVal → String → Bool → Node
  | .obj fields, key, dummy =>
      .node key dummy dummy false (.obj fields) (markLast (buildTreeFields fields))
  | .arr items, key, dummy =>
      .node key dummy dummy false (.arr items) (markLast (buildTreeItems 0 items))
  | j, key, dummy => .node key dummy dummy false j []

/-- The object loop of `buildTree`. -/
def buildTreeFields : List (String × JsonVal) → List Node
  | [] => []
  | (k, v) :: rest => buildTree v k false :: buildTreeFields rest

/-- The array loop of `buildTree` (running index `idx`). -/
def buildTreeItems : Nat → List JsonVal → List Node
  | _, [] => []
  | idx, v :: rest =>
      buildTree v ("[" ++ toString idx ++ "]") false :: buildTreeItems (idx + 1) rest
end

mutual
/-- `collectVisible` from json_view_core.cpp (lines 96-106): push the
node, then recurse into the children only when the node is expanded. -/
def collectVisible : Node → List Node
  | .node k e d l v cs =>
      Node.node k e d l v cs :: (if e then collectVisibleList cs else [])

def collectVisibleList : List Node → List Node
  | [] => []
  | c :: cs => collectVisible c ++ collectVisibleList cs
end

mutual
/-- `expandAll` from json_view_core.cpp (lines 368-375). -/
def expandAll : Node → Node
  | .node k _ d l v cs => .node k true d l v (expandAllList cs)

def expandAllList : List Node → List Node
  | [] => []
  | c :: cs => expandAll c :: expandAllList cs
end

mutual
/-- `collapseAll` from json_view_core.cpp (lines 380-390): the node keeps
its flag only when it is a dummy root and `keepRoot` holds; children are
always collapsed with `keepRoot = false`. -/
def collapseAll : Node → Bool → Node
  | .node k e d l v cs, keepRoot =>
      .node k (if d && keepRoot then e else false) d l v (collapseAllList cs)

def collapseAllList : List Node → List Node
  | [] => []
  | c :: cs => collapseAll c false :: collapseAllList cs
end

mutual
/-- `expandToLevel` from json_view_core.cpp (lines 394-438): target 0
collapses everything; a dummy root is forced open and its children start
at level 1; a regular node is expanded below the target level and
collapsed (together with its whole subtree) at or beyond it. -/
def expandToLevel : Node → Nat → Nat → Node
  | .node key _ d l v cs, tgt, cur =>
      if tgt = 0 then
        Node.node key false d l v (collapseAllList cs)
      else if d then
        Node.node key true d l v (expandToLevelList cs tgt 1)
      else if cur < tgt then
        Node.node key true d l v (expandToLevelList cs tgt (cur + 1))
      else
        Node.node key false d l v (collapseAllList cs)

def expandToLevelList : List Node → Nat → Nat → List Node
  | [], _, _ => []
  | c :: cs, tgt, cur => expandToLevel c tgt cur :: expandToLevelList cs tgt cur
end

/-- Lowercasing of a C++ string (`std::transform` with `tolower`). -/
def lowerChars (s : String) : List Char := s.data.map Char.toLower

/-- Does the needle occur at the head of the haystack? -/
def headMatch : List Char → List Char → Bool
  | [], _ => true
  | _ :: _, [] => false
  | a :: as, b :: bs => a == b && headMatch as bs

/-- `std::string::find(needle) != npos`: contiguous substring test. -/
def containsSub : List Char → List Char → Bool
  | [], needle => needle.isEmpty
  | h :: t, needle => headMatch needle (h :: t) || containsSub t needle

/-- The value-to-string conversion inside `searchTree` (lines 464-480):
string raw, booleans "true"/"false", numbers their dump, null "null",
objects "dictionary", arrays "list". -/
def valueString : JsonVal → String
  | .str s => s
  | .boolean b => if b then "true" else "false"
  | .num dmp => dmp
  | .null => "null"
  | .obj _ => "dictionary"
  | .arr _ => "list"

mutual
/-- `searchTree` from json_view_core.cpp (lines 445-498): with a
non-empty term, a node matches when the enabled key/value criteria find
the term in the lowercased key or lowercased value string; matches are
emitted before the recursion into the children. -/
def searchTree : Node → String → Bool → Bool → List Node
  | .node key e d l v cs, term, sk, sv =>
      (if !term.isEmpty &&
          ((sk && containsSub (lowerChars key) term.data) ||
           (sv && containsSub (lowerChars (valueString v)) term.data)) then
        [Node.node key e d l v cs]
      else []) ++ searchTreeList cs term sk sv

def searchTreeList : List Node → String → Bool → Bool → List Node
  | [], _, _, _ => []
  | c :: cs, term, sk, sv => searchTree c term sk sv ++ searchTreeList cs term sk sv
end

mutual
/-- `expandPath` from json_view_core.cpp (lines 501-509), expressed on
the root of the tree: the argument path addresses the node whose strict
ancestors (every proper prefix of the path, root included) are opened. -/
def expandPath : Node → List Nat → Node
  | t, [] => t
  | .node k _ d l v cs, i :: p => .node k true d l v (updateChild cs i p)

/-- Apply `expandPath` to the `i`-th child, leaving the siblings
untouched. -/
def updateChild : List Node → Nat → List Nat → List Node
  | [], _, _ => []
  | c :: cs, 0, p => expandPath c p :: cs
  | c :: cs, i + 1, p => c :: updateChild cs i p
end

/-- The `SearchState` struct of json_view_core.hpp.  The C++ field
`matches` is called `matchList` here because `matches` is reserved
syntax in Lean. -/
structure SearchState : Type where
  term : String
  searchKeys : Bool
  searchValues : Bool
  matchList : List Node
  currentIndex : Nat

/-- The "next match" index update of the `'n'` key handler in
json-view.cpp (line 2299): `(currentIndex + 1) % matches.size()`. -/
def navNext (s : SearchState) : SearchState :=
  { s with currentIndex := (s.currentIndex + 1) % s.matchList.length }

/-- The "previous match" index update of the `'N'` key handler in
json-view.cpp (line 2325): `(currentIndex - 1 + size) % size`; for
`0 ≤ currentIndex` and `1 ≤ size` this equals
`(currentIndex + size - 1) % size`. -/
def navPrev (s : SearchState) : SearchState :=
  { s with currentIndex := (s.currentIndex + s.matchList.length - 1) % s.matchList.length }

/-- Lowercase hexadecimal digit, for the `\u%04x` escapes. -/
def hexDigit (n : Nat) : Char :=
  if n < 10 then Char.ofNat (48 + n) else Char.ofNat (87 + n)

/-- The per-character escaping of the string case of `getContentLabel`
(lines 274-295): backslash, quote, newline, carriage return and tab get
two-character escapes, other control characters a `\u%04x` escape. -/
def escapeChar (c : Char) : List Char :=
  if c = '\\' then ['\\', '\\']
  else if c = '\"' then ['\\', '\"']
  else if c = '\n' then ['\\', 'n']
  else if c = '\r' then ['\\', 'r']
  else if c = '\t' then ['\\', 't']
  else if c.toNat < 32 then
    ['\\', 'u', hexDigit (c.toNat / 4096 % 16), hexDigit (c.toNat / 256 % 16),
     hexDigit (c.toNat / 16 % 16), hexDigit (c.toNat % 16)]
  else [c]

def escapeString (s : String) : String :=
  ⟨s.data.flatMap escapeChar⟩

/-- `getContentLabel` from json_view_core.cpp (lines 215-315).  The
dummy-root branch renders a file-path summary through the display-width
and file-size collaborators (`wcswidth`, the global `fileSizes` map and
floating-point formatting), which have no shallow embedding; that branch
is abstracted by the `rootLabel` argument.  The non-root branches never
consult `maxWidth`, matching the source. -/
def getContentLabel (rootLabel : Node → Nat → String) (maxWidth : Nat) (n : Node) : String :=
  if n.isDummyRoot then rootLabel n maxWidth
  else
    match n.value with
    | .obj fields =>
        n.key ++ " (dictionary, " ++ toString fields.length ++
          (if fields.length = 1 then " key)" else " keys)")
    | .arr items =>
        n.key ++ " (list, " ++ toString items.length ++
          (if items.length = 1 then " item)" else " items)")
    | .str s => n.key ++ ": \"" ++ escapeString s ++ "\""
    | .boolean b => n.key ++ ": " ++ (if b then "true" else "false")
    | .num dmp => n.key ++ ": " ++ dmp
    | .null => n.key ++ ": null"

mutual
/-- Structural equality of JSON values (modelling C++ pointer identity
of the referenced value within one session). -/
def jsonBEq : JsonVal → JsonVal → Bool
  | .str a, .str b => a == b
  | .num a, .num b => a == b
  | .boolean a, .boolean b => a == b
  | .null, .null => true
  | .obj fs, .obj gs => jsonFieldsBEq fs gs
  | .arr as, .arr bs => jsonListBEq as bs
  | _, _ => false

def jsonFieldsBEq : List (String × JsonVal) → List (String × JsonVal) → Bool
  | [], [] => true
  | (k1, v1) :: r1, (k2, v2) :: r2 => k1 == k2 && jsonBEq v1 v2 && jsonFieldsBEq r1 r2
  | _, _ => false

def jsonListBEq : List JsonVal → List JsonVal → Bool
  | [], [] => true
  | a :: as, b :: bs => jsonBEq a b && jsonListBEq as bs
  | _, _ => false
end

mutual
/-- Structural equality of nodes, modelling the C++ pointer comparison
`current == node` (distinct nodes of one session are distinct objects). -/
def nodeBEq : Node → Node → Bool
  | .node k1 e1 d1 l1 v1 cs1, .node k2 e2 d2 l2 v2 cs2 =>
      k1 == k2 && e1 == e2 && d1 == d2 && l1 == l2 && jsonBEq v1 v2 && nodeListBEq cs1 cs2

def nodeListBEq : List Node → List Node → Bool
  | [], [] => true
  | a :: as, b :: bs => nodeBEq a b && nodeListBEq as bs
  | _, _ => false
end

/-- `baseLabel.insert(baseLabel.rfind(')'), matchInfo)`: insert `ins`
immediately before the last closing parenthesis of `s`; if there is
none, return `s` unchanged.  Works on the reversed character list, where
the last `')'` of `s` is the first one encountered. -/
def insRevAux (ins : List Char) : List Char → Option (List Char)
  | [] => none
  | c :: rest =>
      if c = ')' then some (c :: (ins.reverse ++ rest))
      else (insRevAux ins rest).map (fun r => c :: r)

def insertBeforeLastParen (s ins : String) : String :=
  match insRevAux ins.data s.data.reverse with
  | some r => ⟨r.reverse⟩
  | none => s

/-- `getContentLabelWithSearch` from json_view_core.cpp (lines 318-361):
non-dummy-root nodes delegate to `getContentLabel` unchanged; dummy
roots with an active, non-empty match list get a match-count annotation
inserted before the closing parenthesis of their summary.  The C++ code
finds the root of each match by walking its parent pointers; that
upward walk is abstracted by the `rootOf` argument. -/
def getContentLabelWithSearch (rootLabel : Node → Nat → String) (rootOf : Node → Node)
    (maxWidth : Nat) (n : Node) (search : SearchState) : String :=
  if !n.isDummyRoot then getContentLabel rootLabel maxWidth n
  else
    let baseLabel := getContentLabel rootLabel maxWidth n
    if !search.term.isEmpty && !search.matchList.isEmpty then
      let matchCount := (search.matchList.filter (fun m => nodeBEq (rootOf m) n)).length
      if 0 < matchCount then
        insertBeforeLastParen baseLabel
          (", 🔍 " ++ toString matchCount ++ (if matchCount = 1 then " match" else " matches"))
      else baseLabel
    else baseLabel

/-! ## Claim-side characterisations -/

mutual
/-- All nodes of a tree in depth-first pre-order, each annotated with
"every strict ancestor up to and including the root is expanded"; `anc`
is the value of that property for the subtree root itself (`true` at the
top: the root has no strict ancestors). -/
def preorderAnn : Bool → Node → List (Node × Bool)
  | anc, .node k e d l v cs =>
      (Node.node k e d l v cs, anc) :: preorderAnnList (anc && e) cs

def preorderAnnList : Bool → List Node → List (Node × Bool)
  | _, [] => []
  | anc, c :: cs => preorderAnn anc c ++ preorderAnnList anc cs
end

mutual
/-- All nodes of a tree in depth-first pre-order. -/
def preorderAll : Node → List Node
  | .node k e d l v cs => Node.node k e d l v cs :: preorderAllList cs

def preorderAllList : List Node → List Node
  | [] => []
  | c :: cs => preorderAll c ++ preorderAllList cs
end

/-- The match predicate exactly as the search-completeness property
states it: the term is non-empty and, for whichever flags are enabled,
it is a substring of the lowercased key or of the lowercased canonical
value string. -/
def nodeMatchesB (term : String) (sk sv : Bool) (n : Node) : Bool :=
  !term.isEmpty &&
    ((sk && containsSub (lowerChars n.key) term.data) ||
     (sv && containsSub (lowerChars (valueString n.value)) term.data))

/-- The keys the builder claim expects for the children: property names
in the order the object presents them, bracketed indices for arrays,
nothing for scalars. -/
def specChildKeys : JsonVal → List String
  | .obj fields => fields.map Prod.fst
  | .arr items => (List.range items.length).map (fun i => "[" ++ toString i ++ "]")
  | _ => []

/-- The JSON values the builder claim expects the children to reference,
in the same order. -/
def specChildValues : JsonVal → List JsonVal
  | .obj fields => fields.map Prod.snd
  | .arr items => items
  | _ => []

mutual
/-- All nodes of a tree paired with their depth, in pre-order; `dep` is
the depth of the subtree root (the root of a document is at depth 0, its
direct children at depth 1). -/
def nodesWithDepth : Nat → Node → List (Nat × Node)
  | dep, .node k e d l v cs =>
      (dep, Node.node k e d l v cs) :: nodesWithDepthList (dep + 1) cs

def nodesWithDepthList : Nat → List Node → List (Nat × Node)
  | _, [] => []
  | dep, c :: cs => nodesWithDepth dep c ++ nodesWithDepthList dep cs
end

mutual
/-- No node of the subtree is marked as a dummy root. -/
def noDummy : Node → Bool
  | .node _ _ d _ _ cs => !d && noDummyList cs

def noDummyList : List Node → Bool
  | [] => true
  | c :: cs => noDummy c && noDummyList cs
end

/-- The shape the application builds: the top node of a loaded document
is its dummy root and no node below it is one. -/
def wellFormedRoot : Node → Bool
  | .node _ _ d _ _ cs => d && noDummyList cs

mutual
/-- Every node of the subtree (the root included) has `expanded = false`. -/
def allCollapsed : Node → Bool
  | .node _ e _ _ _ cs => !e && allCollapsedList cs

def allCollapsedList : List Node → Bool
  | [] => true
  | c :: cs => allCollapsed c && allCollapsedList cs
end

mutual
/-- Every node of the subtree (the root included) has `expanded = true`. -/
def allExpanded : Node → Bool
  | .node _ e _ _ _ cs => e && allExpandedList cs

def allExpandedList : List Node → Bool
  | [] => true
  | c :: cs => allExpanded c && allExpandedList cs
end

mutual
/-- The subtree addressed by a path of child indices. -/
def subtreeAt : Node → List Nat → Option Node
  | t, [] => some t
  | .node _ _ _ _ _ cs, i :: p => subtreeAtList cs i p

def subtreeAtList : List Node → Nat → List Nat → Option Node
  | [], _, _ => none
  | c :: _, 0, p => subtreeAt c p
  | _ :: cs, i + 1, p => subtreeAtList cs i p
end

/-- The `expanded` flag of the node addressed by a path. -/
def flagAt (t : Node) (p : List Nat) : Option Bool :=
  (subtreeAt t p).map Node.expanded

/-- `properAnc q p`: the node at path `q` is a strict ancestor of the
node at path `p`, i.e. `q` is a proper prefix of `p`. -/
def properAnc : List Nat → List Nat → Bool
  | [], [] => false
  | [], _ :: _ => true
  | _ :: _, [] => false
  | i :: q, j :: p => i == j && properAnc q p

mutual
/-- The tree with every `expanded` flag erased (set to `false`): two
trees with equal `stripFlags` agree on everything but expansion state. -/
def stripFlags : Node → Node
  | .node k _ d l v cs => .node k false d l v (stripFlagsList cs)

def stripFlagsList : List Node → List Node
  | [] => []
  | c :: cs => stripFlags c :: stripFlagsList cs
end

/-! ## Basic simp lemmas and list-companion bridges -/

@[simp] theorem Node.key_mk (k e d l v cs) : (Node.node k e d l v cs).key = k := rfl

@[simp] theorem Node.expanded_mk (k e d l v cs) : (Node.node k e d l v cs).expanded = e := rfl

@[simp] theorem Node.isDummyRoot_mk (k e d l v cs) : (Node.node k e d l v cs).isDummyRoot = d := rfl

@[simp] theorem Node.isLastChild_mk (k e d l v cs) : (Node.node k e d l v cs).isLastChild = l := rfl

@[simp] theorem Node.value_mk (k e d l v cs) : (Node.node k e d l v cs).value = v := rfl

@[simp] theorem Node.children_mk (k e d l v cs) : (Node.node k e d l v cs).children = cs := rfl

theorem collectVisibleList_eq (cs : List Node) :
    collectVisibleList cs = cs.flatMap collectVisible := by
  induction cs with
  | nil => rfl
  | cons c cs ih => simp [collectVisibleList, ih]

theorem expandAllList_eq (cs : List Node) :
    expandAllList cs = cs.map expandAll := by
  induction cs with
  | nil => rfl
  | cons c cs ih => simp [expandAllList, ih]

theorem collapseAllList_eq (cs : List Node) :
    collapseAllList cs = cs.map (fun c => collapseAll c false) := by
  induction cs with
  | nil => rfl
  | cons c cs ih => simp [collapseAllList, ih]

theorem expandToLevelList_eq (cs : List Node) (tgt cur : Nat) :
    expandToLevelList cs tgt cur = cs.map (fun c => expandToLevel c tgt cur) := by
  induction cs with
  | nil => rfl
  | cons c cs ih => simp [expandToLevelList, ih]

theorem searchTreeList_eq (cs : List Node) (term : String) (sk sv : Bool) :
    searchTreeList cs term sk sv = cs.flatMap (fun c => searchTree c term sk sv) := by
  induction cs with
  | nil => rfl
  | cons c cs ih => simp [searchTreeList, ih]

theorem preorderAnnList_eq (anc : Bool) (cs : List Node) :
    preorderAnnList anc cs = cs.flatMap (preorderAnn anc) := by
  induction cs with
  | nil => rfl
  | cons c cs ih => simp [preorderAnnList, ih]

theorem preorderAllList_eq (cs : List Node) :
    preorderAllList cs = cs.flatMap preorderAll := by
  induction cs with
  | nil => rfl
  | cons c cs ih => simp [preorderAllList, ih]

theorem nodesWithDepthList_eq (dep : Nat) (cs : List Node) :
    nodesWithDepthList dep cs = cs.flatMap (nodesWithDepth dep) := by
  induction cs with
  | nil => rfl
  | cons c cs ih => simp [nodesWithDepthList, ih]

theorem noDummyList_eq (cs : List Node) :
    noDummyList cs = cs.all noDummy := by
  induction cs with
  | nil => rfl
  | cons c cs ih => simp [noDummyList, ih]

theorem allCollapsedList_eq (cs : List Node) :
    allCollapsedList cs = cs.all allCollapsed := by
  induction cs with
  | nil => rfl
  | cons c cs ih => simp [allCollapsedList, ih]

theorem allExpandedList_eq (cs : List Node) :
    allExpandedList cs = cs.all allExpanded := by
  induction cs with
  | nil => rfl
  | cons c cs ih => simp [allExpandedList, ih]

theorem stripFlagsList_eq (cs : List Node) :
    stripFlagsList cs = cs.map stripFlags := by
  induction cs with
  | nil => rfl
  | cons c cs ih => simp [stripFlagsList, ih]

theorem buildTreeFields_eq (fields : List (String × JsonVal)) :
    buildTreeFields fields = fields.map (fun kv => buildTree kv.2 kv.1 false) := by
  induction fields with
  | nil => rfl
  | cons kv rest ih => cases kv; simp [buildTreeFields, ih]

/-! ## C1: visibility soundness of the flattener -/

theorem preorderAnn_false (t : Node) :
    (preorderAnn false t).filter (fun x => x.2) = [] := by
  induction t using Node.inductionOn with
  | _ k e d l v cs ih =>
    rw [preorderAnn, preorderAnnList_eq]
    simp only [Bool.false_and, List.filter_cons, List.filter_flatMap]
    have h : ∀ c ∈ cs, (preorderAnn false c).filter (fun x => x.2) = [] :=
      fun c hc => ih c hc
    simp [List.flatMap_congr h]

/-- C1: for every tree and every assignment of expanded flags, the output
of `collectVisible` is exactly the sublist of the depth-first pre-order
node listing consisting of the nodes all of whose strict ancestors up to
and including the root are expanded (the root always appears, regardless
of its own flag), in that pre-order. -/
theorem collectVisible_visibility (t : Node) :
    collectVisible t = ((preorderAnn true t).filter (fun x => x.2)).map Prod.fst := by
  induction t using Node.inductionOn with
  | _ k e d l v cs ih =>
    cases e with
    | false =>
        rw [collectVisible, preorderAnn, preorderAnnList_eq]
        simp only [Bool.true_and, List.filter_cons, List.filter_flatMap, if_neg]
        have h : ∀ c ∈ cs, (preorderAnn false c).filter (fun x => x.2) = [] :=
          fun c _ => preorderAnn_false c
        simp [List.flatMap_congr h]
    | true =>
        rw [collectVisible, preorderAnn, collectVisibleList_eq, preorderAnnList_eq]
        simp only [Bool.true_and, List.filter_cons, List.filter_flatMap, List.map_flatMap]
        have h : ∀ c ∈ cs,
            collectVisible c = ((preorderAnn true c).filter (fun x => x.2)).map Prod.fst :=
          fun c hc => ih c hc
        simp [List.flatMap_congr h, List.map_flatMap]

/-! ## C2: search completeness -/

theorem searchTree_filter (t : Node) (term : String) (sk sv : Bool) :
    searchTree t term sk sv = (preorderAll t).filter (nodeMatchesB term sk sv) := by
  induction t using Node.inductionOn with
  | _ k e d l v cs ih =>
    rw [searchTree, preorderAll, searchTreeList_eq, preorderAllList_eq]
    simp only [List.filter_cons, List.filter_flatMap, nodeMatchesB,
      Node.key_mk, Node.value_mk]
    rw [List.flatMap_congr (fun c hc => ih c hc)]
    by_cases hcond : (!term.isEmpty &&
        ((sk && containsSub (lowerChars k) term.data) ||
         (sv && containsSub (lowerChars (valueString v)) term.data))) = true
    · simp [hcond]
    · simp [hcond]

/-- C2: `searchTree` emits, in depth-first pre-order and each node at
most once, exactly the nodes for which the term is non-empty and the
enabled criteria find it in the lowercased key or in the canonical
lowercased value string; an empty term yields no matches. -/
theorem searchTree_complete (t : Node) (term : String) (sk sv : Bool) :
    searchTree t term sk sv = (preorderAll t).filter (nodeMatchesB term sk sv) ∧
    searchTree t "" sk sv = [] := by
  refine ⟨searchTree_filter t term sk sv, ?_⟩
  rw [searchTree_filter]
  have h : (nodeMatchesB "" sk sv) = fun _ => false := by
    funext n
    simp [nodeMatchesB, show ("" : String).isEmpty = true from rfl]
  rw [h]
  simp

/-! ## C3: builder child structure and order -/

theorem buildTree_key (j : JsonVal) (key : String) (dummy : Bool) :
    (buildTree j key dummy).key = key := by
  cases j <;> rfl

theorem buildTree_value (j : JsonVal) (key : String) (dummy : Bool) :
    (buildTree j key dummy).value = j := by
  cases j <;> rfl

theorem setLast_key (c : Node) (b : Bool) : (setLast c b).key = c.key := by
  cases c; rfl

theorem setLast_value (c : Node) (b : Bool) : (setLast c b).value = c.value := by
  cases c; rfl

/-- `markLast` only touches the `isLastChild` flags: any projection that
ignores them is preserved elementwise. -/
theorem markLast_map {α : Type} (f : Node → α) (hf : ∀ c b, f (setLast c b) = f c) :
    ∀ cs : List Node, (markLast cs).map f = cs.map f
  | [] => rfl
  | [c] => by simp [markLast, hf]
  | c :: c' :: cs => by simp [markLast, hf, markLast_map f hf (c' :: cs)]

theorem buildTreeItems_map_key (items : List JsonVal) :
    ∀ idx, (buildTreeItems idx items).map Node.key =
      (List.range items.length).map (fun r => "[" ++ toString (idx + r) ++ "]") := by
  induction items with
  | nil => intro idx; rfl
  | cons v rest ih =>
      intro idx
      rw [buildTreeItems]
      simp only [List.map_cons, buildTree_key, List.length_cons,
        List.range_succ_eq_map, List.map_map]
      refine (List.cons_eq_cons).2 ⟨by simp, ?_⟩
      rw [ih (idx + 1)]
      refine List.map_congr_left (fun r _ => ?_)
      have h : idx + 1 + r = idx + (r + 1) := by omega
      simp [Function.comp, h]

theorem buildTreeItems_map_value (items : List JsonVal) :
    ∀ idx, (buildTreeItems idx items).map Node.value = items := by
  induction items with
  | nil => intro idx; rfl
  | cons v rest ih =>
      intro idx
      rw [buildTreeItems]
      simp [buildTree_value, ih (idx + 1)]

/-- C3: for every parsed JSON value, `buildTree` creates exactly one
child per object property, keyed by the property name and in the order
the value presents its properties; exactly one child per array element,
keyed by its bracketed index and in index order; and no children for
scalars — the child list is never reordered. -/
theorem buildTree_children (j : JsonVal) (key : String) (dummy : Bool) :
    (buildTree j key dummy).children.map Node.key = specChildKeys j ∧
    (buildTree j key dummy).children.map Node.value = specChildValues j := by
  cases j with
  | obj fields =>
      constructor
      · show (markLast (buildTreeFields fields)).map Node.key = _
        rw [markLast_map Node.key setLast_key, buildTreeFields_eq, List.map_map]
        exact List.map_congr_left (fun kv _ => buildTree_key kv.2 kv.1 false)
      · show (markLast (buildTreeFields fields)).map Node.value = _
        rw [markLast_map Node.value setLast_value, buildTreeFields_eq, List.map_map]
        exact List.map_congr_left (fun kv _ => buildTree_value kv.2 kv.1 false)
  | arr items =>
      constructor
      · show (markLast (buildTreeItems 0 items)).map Node.key = _
        rw [markLast_map Node.key setLast_key, buildTreeItems_map_key items 0]
        exact List.map_congr_left (fun r _ => by simp)
      · show (markLast (buildTreeItems 0 items)).map Node.value = _
        rw [markLast_map Node.value setLast_value, buildTreeItems_map_value items 0]
        rfl
  | str s => exact ⟨rfl, rfl⟩
  | num dmp => exact ⟨rfl, rfl⟩
  | boolean b => exact ⟨rfl, rfl⟩
  | null => exact ⟨rfl, rfl⟩

/-! ## Expansion-controller lemmas shared by the level claims -/

theorem allCollapsed_collapseAll (t : Node) : allCollapsed (collapseAll t false) = true := by
  induction t using Node.inductionOn with
  | _ k e d l v cs ih =>
    rw [collapseAll, allCollapsed, collapseAllList_eq, allCollapsedList_eq, List.all_map]
    simp only [Bool.and_false, Bool.false_eq_true, if_false, Bool.not_false, Bool.true_and]
    rw [List.all_eq_true]
    exact fun c hc => ih c hc

theorem allCollapsedList_collapseAllList (cs : List Node) :
    allCollapsedList (collapseAllList cs) = true := by
  rw [collapseAllList_eq, allCollapsedList_eq, List.all_map, List.all_eq_true]
  exact fun c _ => allCollapsed_collapseAll c

theorem nodesWithDepth_depth_le (t : Node) :
    ∀ dep d n, (d, n) ∈ nodesWithDepth dep t → dep ≤ d := by
  induction t using Node.inductionOn with
  | _ k e d' l v cs ih =>
    intro dep d n hmem
    rw [nodesWithDepth, nodesWithDepthList_eq] at hmem
    rcases List.mem_cons.1 hmem with h | h
    · cases Prod.mk.injEq .. ▸ h; omega
    · obtain ⟨c, hc, hm⟩ := List.mem_flatMap.1 h
      have := ih c hc (dep + 1) d n hm
      omega

theorem nodesWithDepth_collapsed (t : Node) (ht : allCollapsed t = true) :
    ∀ dep d n, (d, n) ∈ nodesWithDepth dep t → n.expanded = false := by
  induction t using Node.inductionOn with
  | _ k e d' l v cs ih =>
    intro dep d n hmem
    rw [allCollapsed, Bool.and_eq_true, Bool.not_eq_true', allCollapsedList_eq,
      List.all_eq_true] at ht
    rw [nodesWithDepth, nodesWithDepthList_eq] at hmem
    rcases List.mem_cons.1 hmem with h | h
    · have hn : n = Node.node k e d' l v cs := congrArg Prod.snd h
      rw [hn, Node.expanded_mk, ht.1]
    · obtain ⟨c, hc, hm⟩ := List.mem_flatMap.1 h
      exact ih c hc (ht.2 c hc) (dep + 1) d n hm

theorem expandToLevel_flags_core (k : Nat) (hk : 1 ≤ k) :
    ∀ t, noDummy t = true → ∀ cur d n,
      (d, n) ∈ nodesWithDepth cur (expandToLevel t k cur) → n.expanded = decide (d < k) := by
  intro t
  induction t using Node.inductionOn with
  | _ key e d' l v cs ih =>
    intro hnd cur d n hmem
    rw [noDummy, Bool.and_eq_true, Bool.not_eq_true', noDummyList_eq,
      List.all_eq_true] at hnd
    rw [expandToLevel, if_neg (by omega), hnd.1, if_neg (Bool.false_ne_true)] at hmem
    by_cases hcur : cur < k
    · rw [if_pos hcur, nodesWithDepth, nodesWithDepthList_eq] at hmem
      rcases List.mem_cons.1 hmem with h | h
      · have hd : d = cur := congrArg Prod.fst h
        have hn : n = Node.node key true false l v (expandToLevelList cs k (cur + 1)) :=
          congrArg Prod.snd h
        rw [hn, Node.expanded_mk, hd]
        simp [hcur]
      · rw [expandToLevelList_eq] at h
        obtain ⟨c', hc', hm⟩ := List.mem_flatMap.1 h
        obtain ⟨c, hc, rfl⟩ := List.mem_map.1 hc'
        exact ih c hc (hnd.2 c hc) (cur + 1) d n hm
    · rw [if_neg hcur, nodesWithDepth, nodesWithDepthList_eq] at hmem
      rcases List.mem_cons.1 hmem with h | h
      · have hd : d = cur := congrArg Prod.fst h
        have hn : n = Node.node key false false l v (collapseAllList cs) :=
          congrArg Prod.snd h
        rw [hn, Node.expanded_mk, hd]
        simp [hcur]
      · rw [collapseAllList_eq] at h
        obtain ⟨c', hc', hm⟩ := List.mem_flatMap.1 h
        obtain ⟨c, hc, rfl⟩ := List.mem_map.1 hc'
        have hflag := nodesWithDepth_collapsed (collapseAll c false)
          (allCollapsed_collapseAll c) (cur + 1) d n hm
        have hdep := nodesWithDepth_depth_le (collapseAll c false) (cur + 1) d n hm
        rw [hflag]
        have : ¬(d < k) := by omega
        simp [this]

theorem expandToLevel_flags_root (t : Node) (hw : wellFormedRoot t = true)
    (k : Nat) (hk : 1 ≤ k) :
    ∀ d n, (d, n) ∈ nodesWithDepth 0 (expandToLevel t k 0) → n.expanded = decide (d < k) := by
  cases t with
  | node key e d' l v cs =>
    intro d n hmem
    rw [wellFormedRoot, Bool.and_eq_true, noDummyList_eq, List.all_eq_true] at hw
    rw [expandToLevel, if_neg (by omega), hw.1, if_pos rfl, nodesWithDepth,
      nodesWithDepthList_eq] at hmem
    rcases List.mem_cons.1 hmem with h | h
    · have hd : d = 0 := congrArg Prod.fst h
      have hn : n = Node.node key true true l v (expandToLevelList cs k 1) :=
        congrArg Prod.snd h
      rw [hn, Node.expanded_mk, hd]
      have : 0 < k := by omega
      simp [this]
    · rw [expandToLevelList_eq] at h
      obtain ⟨c', hc', hm⟩ := List.mem_flatMap.1 h
      obtain ⟨c, hc, rfl⟩ := List.mem_map.1 hc'
      exact expandToLevel_flags_core k hk c (hw.2 c hc) 1 d n hm

/-! ## C4, C5: expandToLevel with a positive target -/

/-- A small concrete document, `{"a": {"b": null}}` under its dummy root. -/
def sampleLeaf : Node := .node "b" false false true .null []

def sampleMid : Node := .node "a" false false true (.obj [("b", .null)]) [sampleLeaf]

def sampleRoot : Node :=
  .node "doc.json" true true true (.obj [("a", .obj [("b", .null)])]) [sampleMid]

theorem nodesWithDepth_self_mem (t : Node) (dep : Nat) :
    (dep, t) ∈ nodesWithDepth dep t := by
  cases t with
  | node key e d l v cs => rw [nodesWithDepth]; exact List.mem_cons_self _ _

/-- C4 (amended): after `expandToLevel(root, k)` with `k ≥ 1` on a
document root, the root is expanded, every non-root node at depth
`d < targetLevel` is expanded, and every node at depth `d ≥ targetLevel`
is collapsed, the collapse reaching all of its descendants. -/
theorem expandToLevel_level_rule (t : Node) (hw : wellFormedRoot t = true)
    (k : Nat) (hk : 1 ≤ k) :
    (expandToLevel t k 0).expanded = true ∧
    ∀ d n, (d, n) ∈ nodesWithDepth 0 (expandToLevel t k 0) →
      (1 ≤ d → d < k → n.expanded = true) ∧ (k ≤ d → n.expanded = false) := by
  constructor
  · have h := expandToLevel_flags_root t hw k hk 0 _ (nodesWithDepth_self_mem _ 0)
    rw [h]
    simp only [decide_eq_true_eq]
    omega
  · intro d n hmem
    have h := expandToLevel_flags_root t hw k hk d n hmem
    rw [h]
    constructor
    · intro _ hdk; simp [hdk]
    · intro hkd
      have : ¬(d < k) := by omega
      simp [this]

/-- C4 counterexample: with `targetLevel = 1` the non-root node at depth
1 (so depth ≤ targetLevel) is NOT expanded after the call, contradicting
the "depth d ≤ targetLevel is expanded" part of the claim. -/
theorem expandToLevel_level_rule_cex :
    wellFormedRoot sampleRoot = true ∧
    (1, Node.node "a" false false true (.obj [("b", .null)]) [sampleLeaf]) ∈
      nodesWithDepth 0 (expandToLevel sampleRoot 1 0) ∧
    (Node.node "a" false false true (.obj [("b", .null)]) [sampleLeaf]).isDummyRoot = false ∧
    (Node.node "a" false false true (.obj [("b", .null)]) [sampleLeaf]).expanded = false := by
  refine ⟨rfl, ?_, rfl, rfl⟩
  have h : nodesWithDepth 0 (expandToLevel sampleRoot 1 0) =
      [(0, expandToLevel sampleRoot 1 0),
       (1, Node.node "a" false false true (.obj [("b", .null)]) [sampleLeaf]),
       (2, sampleLeaf)] := rfl
  rw [h]
  exact List.mem_cons_of_mem _ (List.mem_cons_self _ _)

/-- Witness for the amended C4 theorem: the sample document with k = 2. -/
theorem expandToLevel_level_rule_witness :
    wellFormedRoot sampleRoot = true ∧ 1 ≤ 2 ∧
    ((expandToLevel sampleRoot 2 0).expanded = true ∧
     ∀ d n, (d, n) ∈ nodesWithDepth 0 (expandToLevel sampleRoot 2 0) →
       (1 ≤ d → d < 2 → n.expanded = true) ∧ (2 ≤ d → n.expanded = false)) :=
  ⟨rfl, by omega, expandToLevel_level_rule sampleRoot rfl 2 (by omega)⟩

/-- C5 (amended): after `expandToLevel(root, k)` with `k ≥ 1` on a
document root, a node is expanded iff its depth from the root is `< k`
(the root's direct children are at depth 1, the root itself at depth 0);
in particular no node at depth ≥ k is expanded. -/
theorem expandToLevel_depth_bound (t : Node) (hw : wellFormedRoot t = true)
    (k : Nat) (hk : 1 ≤ k) :
    ∀ d n, (d, n) ∈ nodesWithDepth 0 (expandToLevel t k 0) →
      (n.expanded = true ↔ d < k) := by
  intro d n hmem
  rw [expandToLevel_flags_root t hw k hk d n hmem]
  simp

/-- C5 counterexample: with `targetLevel = 3`, the childless node at
depth 2 < 3 ends up expanded, contradicting the "and it has children"
part of the claim. -/
theorem expandToLevel_depth_bound_cex :
    wellFormedRoot sampleRoot = true ∧
    (2, Node.node "b" true false true .null []) ∈
      nodesWithDepth 0 (expandToLevel sampleRoot 3 0) ∧
    (Node.node "b" true false true .null []).children = [] ∧
    (Node.node "b" true false true .null []).expanded = true := by
  refine ⟨rfl, ?_, rfl, rfl⟩
  have h : nodesWithDepth 0 (expandToLevel sampleRoot 3 0) =
      [(0, expandToLevel sampleRoot 3 0),
       (1, Node.node "a" true false true (.obj [("b", .null)])
              [Node.node "b" true false true .null []]),
       (2, Node.node "b" true false true .null [])] := rfl
  rw [h]
  exact List.mem_cons_of_mem _ (List.mem_cons_of_mem _ (List.mem_cons_self _ _))

/-- Witness for the amended C5 theorem: the sample document with k = 2. -/
theorem expandToLevel_depth_bound_witness :
    wellFormedRoot sampleRoot = true ∧ 1 ≤ 2 ∧
    (∀ d n, (d, n) ∈ nodesWithDepth 0 (expandToLevel sampleRoot 2 0) →
      (n.expanded = true ↔ d < 2)) :=
  ⟨rfl, by omega, expandToLevel_depth_bound sampleRoot rfl 2 (by omega)⟩

/-! ## C6: expandToLevel with target 0 -/

theorem expandToLevel_zero_eq_collapseAll (t : Node) (cur : Nat) :
    expandToLevel t 0 cur = collapseAll t false := by
  cases t with
  | node key e d l v cs =>
      rw [expandToLevel, collapseAll, if_pos rfl]
      simp

theorem collapseAll_idem (t : Node) :
    collapseAll (collapseAll t false) false = collapseAll t false := by
  induction t using Node.inductionOn with
  | _ k e d l v cs ih =>
      simp only [collapseAll, Bool.and_false, Bool.false_eq_true, if_false,
        collapseAllList_eq, List.map_map]
      congr 1
      exact List.map_congr_left (fun c hc => by simpa [Function.comp] using ih c hc)

/-- C6: `expandToLevel` with target 0 collapses every node of the
subtree, the root included, and it is idempotent: a second application
returns exactly the same tree. -/
theorem expandToLevel_zero_spec (t : Node) :
    allCollapsed (expandToLevel t 0 0) = true ∧
    expandToLevel (expandToLevel t 0 0) 0 0 = expandToLevel t 0 0 := by
  simp only [expandToLevel_zero_eq_collapseAll]
  exact ⟨allCollapsed_collapseAll t, collapseAll_idem t⟩

/-! ## C7: expandPath frame property -/

theorem properAnc_nil (q : List Nat) : properAnc q [] = false := by
  cases q <;> rfl

theorem properAnc_self (p : List Nat) : properAnc p p = false := by
  induction p with
  | nil => rfl
  | cons i p ih => simp [properAnc, ih]

theorem subtreeAtList_updateChild (p' : List Nat)
    (ih : ∀ (t : Node) (q : List Nat),
      flagAt (expandPath t p') q = (flagAt t q).map (fun b => b || properAnc q p')) :
    ∀ (cs : List Node) (i j : Nat) (q' : List Nat),
      (subtreeAtList (updateChild cs i p') j q').map Node.expanded =
        ((subtreeAtList cs j q').map Node.expanded).map
          (fun b => b || ((j == i) && properAnc q' p')) := by
  intro cs
  induction cs with
  | nil =>
      intro i j q'
      simp [updateChild, subtreeAtList]
  | cons c cs ihl =>
      intro i j q'
      cases i with
      | zero =>
          cases j with
          | zero =>
              simp only [updateChild, subtreeAtList]
              simpa [flagAt] using ih c q'
          | succ j' =>
              simp only [updateChild, subtreeAtList]
              cases hf : subtreeAtList cs j' q' <;> simp [hf]
      | succ i' =>
          cases j with
          | zero =>
              simp only [updateChild, subtreeAtList]
              cases hf : subtreeAt c q' <;> simp [hf]
          | succ j' =>
              simp only [updateChild, subtreeAtList]
              simpa using ihl i' j' q'

theorem flagAt_expandPath (p : List Nat) :
    ∀ (t : Node) (q : List Nat),
      flagAt (expandPath t p) q = (flagAt t q).map (fun b => b || properAnc q p) := by
  induction p with
  | nil =>
      intro t q
      have h1 : expandPath t [] = t := by simp [expandPath]
      rw [h1]
      cases hfq : flagAt t q <;> simp [properAnc_nil]
  | cons i p' ih =>
      intro t q
      cases t with
      | node k e d l v cs =>
          have h1 : expandPath (Node.node k e d l v cs) (i :: p') =
              Node.node k true d l v (updateChild cs i p') := by simp [expandPath]
          rw [h1]
          cases q with
          | nil => simp [flagAt, subtreeAt, properAnc]
          | cons j q' =>
              simp only [flagAt, subtreeAt]
              exact subtreeAtList_updateChild p' ih cs i j q'

theorem stripFlags_expandPath (p : List Nat) :
    ∀ t : Node, stripFlags (expandPath t p) = stripFlags t := by
  induction p with
  | nil => intro t; simp [expandPath]
  | cons i p' ih =>
      intro t
      cases t with
      | node k e d l v cs =>
          have h1 : expandPath (Node.node k e d l v cs) (i :: p') =
              Node.node k true d l v (updateChild cs i p') := by simp [expandPath]
          rw [h1]
          simp only [stripFlags, stripFlagsList_eq]
          congr 1
          clear h1
          induction cs generalizing i with
          | nil => cases i <;> rfl
          | cons c cs ihl =>
              cases i with
              | zero => simp [updateChild, ih c]
              | succ i' => simpa [updateChild] using ihl i'

/-- C7: `expandPath` sets `expanded = true` on every strict ancestor of
the target node (every proper prefix of its path, the root included),
leaves the flag of the target node itself and of every non-ancestor
exactly as it was, never sets any flag to `false`, and changes nothing
besides `expanded` flags. -/
theorem expandPath_frame (t : Node) (p : List Nat) :
    (∀ q, flagAt (expandPath t p) q = (flagAt t q).map (fun b => b || properAnc q p)) ∧
    properAnc p p = false ∧
    stripFlags (expandPath t p) = stripFlags t :=
  ⟨fun q => flagAt_expandPath p t q, properAnc_self p, stripFlags_expandPath p t⟩

/-! ## C8: expandAll and collapseAll as inverses on the flag set -/

theorem allExpanded_expandAll (t : Node) : allExpanded (expandAll t) = true := by
  induction t using Node.inductionOn with
  | _ k e d l v cs ih =>
      rw [expandAll, allExpanded, expandAllList_eq, allExpandedList_eq, List.all_map]
      simp only [Node.expanded_mk, Bool.true_and]
      rw [List.all_eq_true]
      exact fun c hc => ih c hc

/-- C8: `expandAll` sets `expanded = true` on the root and every
descendant regardless of prior state; a following `collapseAll(root,
false)` collapses every node including the root, while
`collapseAll(root, true)` keeps the root expanded and collapses every
descendant. -/
theorem expandAll_collapseAll_inverse (t : Node) (h : t.isDummyRoot = true) :
    allExpanded (expandAll t) = true ∧
    allCollapsed (collapseAll (expandAll t) false) = true ∧
    (collapseAll (expandAll t) true).expanded = true ∧
    allCollapsedList (collapseAll (expandAll t) true).children = true := by
  refine ⟨allExpanded_expandAll t, allCollapsed_collapseAll _, ?_, ?_⟩
  · cases t with
    | node k e d l v cs =>
        rw [Node.isDummyRoot_mk] at h
        subst h
        rw [expandAll, collapseAll]
        simp
  · cases t with
    | node k e d l v cs =>
        rw [expandAll, collapseAll, Node.children_mk]
        exact allCollapsedList_collapseAllList _

/-- Witness for C8 at the sample document. -/
theorem expandAll_collapseAll_inverse_witness :
    sampleRoot.isDummyRoot = true ∧
    (allExpanded (expandAll sampleRoot) = true ∧
     allCollapsed (collapseAll (expandAll sampleRoot) false) = true ∧
     (collapseAll (expandAll sampleRoot) true).expanded = true ∧
     allCollapsedList (collapseAll (expandAll sampleRoot) true).children = true) :=
  ⟨rfl, expandAll_collapseAll_inverse sampleRoot rfl⟩

/-! ## C9: search-match navigation wrap-around -/

theorem navNext_matchList (s : SearchState) : (navNext s).matchList = s.matchList := rfl

theorem navPrev_matchList (s : SearchState) : (navPrev s).matchList = s.matchList := rfl

theorem navNext_iterate (n : Nat) (hn : 0 < n) :
    ∀ (k : Nat) (s : SearchState), s.matchList.length = n → s.currentIndex < n →
      (navNext^[k] s).currentIndex = (s.currentIndex + k) % n := by
  intro k
  induction k with
  | zero =>
      intro s hl hi
      simpa using (Nat.mod_eq_of_lt hi).symm
  | succ k ih =>
      intro s hl hi
      rw [Function.iterate_succ_apply]
      have hl' : (navNext s).matchList.length = n := by rw [navNext_matchList, hl]
      have hi' : (navNext s).currentIndex < n := by
        simp only [navNext, hl]
        exact Nat.mod_lt _ hn
      rw [ih (navNext s) hl' hi']
      simp only [navNext, hl]
      rw [Nat.mod_add_mod]
      congr 1
      omega

theorem navPrev_iterate (n : Nat) (hn : 0 < n) :
    ∀ (k : Nat) (s : SearchState), s.matchList.length = n → s.currentIndex < n →
      (navPrev^[k] s).currentIndex = (s.currentIndex + k * (n - 1)) % n := by
  intro k
  induction k with
  | zero =>
      intro s hl hi
      simpa using (Nat.mod_eq_of_lt hi).symm
  | succ k ih =>
      intro s hl hi
      rw [Function.iterate_succ_apply]
      have hl' : (navPrev s).matchList.length = n := by rw [navPrev_matchList, hl]
      have hi' : (navPrev s).currentIndex < n := by
        simp only [navPrev, hl]
        exact Nat.mod_lt _ hn
      rw [ih (navPrev s) hl' hi']
      simp only [navPrev, hl]
      rw [Nat.mod_add_mod]
      congr 1
      cases n with
      | zero => omega
      | succ m =>
          have h2 : s.currentIndex + (m + 1) - 1 = s.currentIndex + m := by omega
          simp only [Nat.succ_sub_one, h2]
          ring

/-- C9: with a non-empty match list of size n and a valid current index,
one "next" step advances the index by +1 wrapping past the last index to
0, one "previous" step advances it by -1 wrapping below 0 to n-1, and n
"next" steps (or n "previous" steps) return the index to its original
value. -/
theorem navigation_wrap (s : SearchState) (n : Nat)
    (hl : s.matchList.length = n) (hn : 0 < n) (hi : s.currentIndex < n) :
    (navNext s).currentIndex = (s.currentIndex + 1) % n ∧
    (s.currentIndex + 1 = n → (navNext s).currentIndex = 0) ∧
    (s.currentIndex + 1 < n → (navNext s).currentIndex = s.currentIndex + 1) ∧
    ((navPrev s).currentIndex = if s.currentIndex = 0 then n - 1 else s.currentIndex - 1) ∧
    (navNext^[n] s).currentIndex = s.currentIndex ∧
    (navPrev^[n] s).currentIndex = s.currentIndex := by
  refine ⟨by simp [navNext, hl], ?_, ?_, ?_, ?_, ?_⟩
  · intro h
    simp [navNext, hl, h]
  · intro h
    simp [navNext, hl, Nat.mod_eq_of_lt h]
  · by_cases h0 : s.currentIndex = 0
    · rw [if_pos h0]
      simp only [navPrev, hl, h0]
      have h3 : n - 1 < n := by omega
      simp only [Nat.zero_add]
      exact Nat.mod_eq_of_lt h3
    · rw [if_neg h0]
      simp only [navPrev, hl]
      have h2 : s.currentIndex + n - 1 = (s.currentIndex - 1) + n := by omega
      rw [h2, Nat.add_mod_right]
      exact Nat.mod_eq_of_lt (by omega)
  · rw [navNext_iterate n hn n s hl hi, Nat.add_mod_right]
    exact Nat.mod_eq_of_lt hi
  · rw [navPrev_iterate n hn n s hl hi]
    have h3 : n * (n - 1) = (n - 1) * n := Nat.mul_comm n (n - 1)
    rw [h3, Nat.add_mul_mod_self_right]
    exact Nat.mod_eq_of_lt hi

/-- A concrete search state for the navigation witness. -/
def sampleSearch : SearchState :=
  { term := "b", searchKeys := true, searchValues := false,
    matchList := [sampleLeaf], currentIndex := 0 }

/-- Witness for C9: a single-match list, starting index 0. -/
theorem navigation_wrap_witness :
    sampleSearch.matchList.length = 1 ∧ 0 < 1 ∧ sampleSearch.currentIndex < 1 ∧
    ((navNext sampleSearch).currentIndex = (sampleSearch.currentIndex + 1) % 1 ∧
     (sampleSearch.currentIndex + 1 = 1 → (navNext sampleSearch).currentIndex = 0) ∧
     (sampleSearch.currentIndex + 1 < 1 →
       (navNext sampleSearch).currentIndex = sampleSearch.currentIndex + 1) ∧
     ((navPrev sampleSearch).currentIndex =
       if sampleSearch.currentIndex = 0 then 1 - 1 else sampleSearch.currentIndex - 1) ∧
     (navNext^[1] sampleSearch).currentIndex = sampleSearch.currentIndex ∧
     (navPrev^[1] sampleSearch).currentIndex = sampleSearch.currentIndex) :=
  ⟨rfl, by omega, by decide,
   navigation_wrap sampleSearch 1 rfl (by omega) (by decide)⟩

/-! ## C10: non-root labels are independent of the search state -/

/-- C10: for every non-root node and every search state, the
search-annotated label equals the plain content label: the match-count
annotation is only ever added to dummy-root labels. -/
theorem label_nonroot_search_independent (rootLabel : Node → Nat → String)
    (rootOf : Node → Node) (maxWidth : Nat) (n : Node) (s : SearchState)
    (h : n.isDummyRoot = false) :
    getContentLabelWithSearch rootLabel rootOf maxWidth n s =
      getContentLabel rootLabel maxWidth n := by
  simp [getContentLabelWithSearch, h]

/-- Witness for C10 at a concrete scalar node and search state. -/
theorem label_nonroot_search_independent_witness :
    sampleLeaf.isDummyRoot = false ∧
    getContentLabelWithSearch (fun _ _ => "") id 80 sampleLeaf sampleSearch =
      getContentLabel (fun _ _ => "") 80 sampleLeaf :=
  ⟨rfl, label_nonroot_search_independent (fun _ _ => "") id 80 sampleLeaf sampleSearch rfl⟩
